import Mathlib

/-!
Verification development for the chord-midi compiler.

This file shallowly embeds the core of the program (pitch and scale
primitives, chord-symbol parsing, chord resolution, voicing search,
score transposition, and the rhythm interpreter) as Lean definitions,
and proves or refutes the documented properties against them.

Machine integers of the source (`u8`, `u32`, `usize`) are embedded as
`Nat`; every arithmetic expression of the source that could wrap or
underflow is either shown unreachable in the situations the theorems
cover, or modelled by `Option` (a Rust panic or `Err` becomes `none`).
`BTreeSet<u8>` values are embedded as strictly ascending duplicate-free
lists, which is exactly the iteration order the source observes.
-/

namespace ChordMidi

/-- The 12 chromatic pitch classes, from model/pitch.rs `enum Pitch`. -/
inductive Pitch
  | C | Cs | D | Ds | E | F | Fs | G | Gs | A | As | B
  deriving DecidableEq, Repr

/-- Discriminant of `Pitch` (the `#[repr(u8)]` value used by `as u8` casts). -/
def Pitch.val : Pitch → Nat
  | .C => 0 | .Cs => 1 | .D => 2 | .Ds => 3 | .E => 4 | .F => 5
  | .Fs => 6 | .G => 7 | .Gs => 8 | .A => 9 | .As => 10 | .B => 11

/-- model/pitch.rs `impl TryFrom<u8> for Pitch`. -/
def pitchTryFrom : Nat → Option Pitch
  | 0 => some .C | 1 => some .Cs | 2 => some .D | 3 => some .Ds
  | 4 => some .E | 5 => some .F | 6 => some .Fs | 7 => some .G
  | 8 => some .Gs | 9 => some .A | 10 => some .As | 11 => some .B
  | _ => none

/-- model/pitch.rs `Pitch::from_str`: the enharmonic folding table of the
chord grammar, arm for arm.  Note the source folds both "B#" and "Cb" to
`Cs`. -/
def pitchFromStr : String → Option Pitch
  | "C" => some .C
  | "C#" => some .Cs | "Db" => some .Cs
  | "D" => some .D
  | "D#" => some .Ds | "Eb" => some .Ds
  | "E" => some .E | "Fb" => some .E
  | "F" => some .F | "E#" => some .F
  | "F#" => some .Fs | "Gb" => some .Fs
  | "G" => some .G
  | "G#" => some .Gs | "Ab" => some .Gs
  | "A" => some .A
  | "A#" => some .As | "Bb" => some .As
  | "B" => some .B
  | "B#" => some .Cs | "Cb" => some .Cs
  | _ => none

/-- model/pitch.rs `Pitch::diff`: `(a - b + 12) as u8 % 12` on the `i8`
casts of the two discriminants; both are below 12, so over `Nat` this is
exactly `(a + 12 - b) % 12`. -/
def Pitch.diff (a b : Pitch) : Nat := (a.val + 12 - b.val) % 12

/-- model/pitch.rs `enum Accidental` (declaration order fixes the
discriminants used by `as u8` / `as i8` casts). -/
inductive Accidental
  | Natural | Sharp | Flat
  deriving DecidableEq, Repr

/-- Discriminant of `Accidental`: what the source's `as u8` and `as i8`
casts produce (`Natural = 0`, `Sharp = 1`, `Flat = 2`). -/
def Accidental.rank : Accidental → Nat
  | .Natural => 0 | .Sharp => 1 | .Flat => 2

/-- model/pitch.rs `impl From<Accidental> for i8`: the conversion the
source declares for the accidental's chromatic offset. -/
def Accidental.toI8 : Accidental → Int
  | .Natural => 0 | .Sharp => 1 | .Flat => -1

/-- model/scale.rs `enum Scale`. -/
inductive Scale
  | Major | Minor
  deriving DecidableEq, Repr

/-- model/scale.rs `Scale::degrees`: the diatonic step patterns. -/
def Scale.degreeSteps : Scale → List Nat
  | .Major => [2, 2, 1, 2, 2, 2, 1]
  | .Minor => [2, 1, 2, 2, 1, 2, 2]

/-- model/scale.rs `Scale::semitone`: sum steps `s[i % 7]` for
`i in 0 .. degree-1`. -/
def Scale.semitone (s : Scale) (degree : Nat) : Nat :=
  ((List.range (degree - 1)).map (fun i => s.degreeSteps.getD (i % 7) 0)).sum

/-- model/scale.rs `struct Degree(pub u8, pub Accidental)`. -/
structure Degree where
  num : Nat
  acc : Accidental
  deriving DecidableEq, Repr

/-- model/modifier.rs `enum Modifier` (the source misspells
`MinorMajaor7`; the name is kept). -/
inductive Modifier
  | Major (n : Nat)
  | Minor (n : Nat)
  | MinorMajaor7
  | Sus2
  | Sus4
  | Flat5th
  | Aug
  | Aug7
  | Dim
  | Dim7
  | Omit (n : Nat)
  | Add (n : Nat)
  | Tension (d : Degree)
  deriving DecidableEq, Repr

/-- model/key.rs `enum Key`. -/
inductive Key
  | Absolute (p : Pitch)
  | Relative (d : Nat)
  deriving DecidableEq, Repr

def Key.isAbsolute : Key → Bool
  | .Absolute _ => true
  | .Relative _ => false

/-- model/chord.rs `struct Chord`.  The `BTreeSet<u8>` of semitones is
embedded as its ascending iteration order, a strictly sorted list.
The source's field `on` is spelled `onKey` (`on` is reserved in Lean). -/
structure Chord where
  octave : Nat
  inversion : Nat
  key : Key
  semitones : List Nat
  onKey : Option Key
  deriving DecidableEq, Repr

/-- Insertion into the ascending list representing a `BTreeSet<u8>`
(inserting an element already present leaves the set unchanged). -/
def slInsert (x : Nat) : List Nat → List Nat
  | [] => [x]
  | y :: ys => if x < y then x :: y :: ys else if x = y then y :: ys else y :: slInsert x ys

/-- model/chord.rs `Chord::scale`: minor while the minor third is
present, major otherwise. -/
def Chord.scale (c : Chord) : Scale :=
  if Scale.Minor.semitone 3 ∈ c.semitones then .Minor else .Major

/-- model/chord.rs `Chord::remove_degree`: drop both the minor-scale and
the major-scale slot of the degree. -/
def Chord.removeDegree (c : Chord) (d : Nat) : Chord :=
  { c with semitones := ((c.semitones.erase (Scale.Minor.semitone d)).erase (Scale.Major.semitone d)) }

/-- Insert a semitone into the chord's set. -/
def Chord.insertSemitone (c : Chord) (s : Nat) : Chord :=
  { c with semitones := slInsert s c.semitones }

/-- Remove a semitone from the chord's set. -/
def Chord.eraseSemitone (c : Chord) (s : Nat) : Chord :=
  { c with semitones := c.semitones.erase s }

/-- model/chord.rs `modify_degree`: per degree, remove both slot
identities and insert the scale's semitone. -/
def modifyDegree (c : Chord) (s : Scale) (ds : List Nat) : Chord :=
  ds.foldl (fun c d => (c.removeDegree d).insertSemitone (s.semitone d)) c

/-- model/chord.rs `Chord::modify`, arm for arm.  Sequencing matters:
`self.scale()` is recomputed from the current semitone content at each
step, exactly as in the source.  The catch-all arm (`unknown mod`) is
`none`.  The `Tension` arm reproduces the source's `a.clone() as u8`
discriminant cast (`Accidental.rank`), not the `From<Accidental> for i8`
conversion. -/
def Chord.modify (c : Chord) (m : Modifier) : Option Chord :=
  match m with
  | .Major 5 => some (modifyDegree c .Major [1, 3, 5])
  | .Major 6 => some (modifyDegree c .Major [1, 3, 5, 6])
  | .Major 7 => some (modifyDegree c .Major [1, 3, 5, 7])
  | .Major 9 => some (modifyDegree c .Major [1, 3, 5, 7, 9])
  | .Minor 5 => some (modifyDegree c .Minor [1, 3, 5])
  | .Minor 6 => some (modifyDegree c .Minor [1, 3, 5, 6])
  | .Minor 7 => some (modifyDegree c .Minor [1, 3, 5, 7])
  | .Minor 9 => some (modifyDegree c .Minor [1, 3, 5, 7, 9])
  | .MinorMajaor7 =>
      some ([(Scale.Minor, 1), (Scale.Minor, 3), (Scale.Minor, 5), (Scale.Major, 7)].foldl
        (fun c sd => (c.eraseSemitone (c.scale.semitone sd.2)).insertSemitone (sd.1.semitone sd.2)) c)
  | .Sus2 =>
      some ((c.eraseSemitone (c.scale.semitone 3)).insertSemitone (Scale.Major.semitone 3 - 1))
  | .Sus4 =>
      some ((c.eraseSemitone (c.scale.semitone 3)).insertSemitone (Scale.Major.semitone 3 + 1))
  | .Flat5th =>
      some ((c.eraseSemitone (c.scale.semitone 5)).insertSemitone (Scale.Major.semitone 5 - 1))
  | .Aug =>
      some ((c.eraseSemitone (c.scale.semitone 5)).insertSemitone (Scale.Major.semitone 5 + 1))
  | .Aug7 =>
      some (
        let c1 := (c.eraseSemitone (c.scale.semitone 5)).insertSemitone (Scale.Major.semitone 5 + 1)
        (c1.eraseSemitone (c1.scale.semitone 7)).insertSemitone (Scale.Major.semitone 7 + 1))
  | .Dim =>
      some (
        let c1 := (c.eraseSemitone (c.scale.semitone 3)).insertSemitone (Scale.Major.semitone 3 - 1)
        (c1.eraseSemitone (c1.scale.semitone 5)).insertSemitone (Scale.Major.semitone 5 - 1))
  | .Dim7 =>
      some (
        let c1 := (c.eraseSemitone (c.scale.semitone 3)).insertSemitone (Scale.Major.semitone 3 - 1)
        let c2 := (c1.eraseSemitone (c1.scale.semitone 5)).insertSemitone (Scale.Major.semitone 5 - 1)
        (c2.eraseSemitone (c2.scale.semitone 7)).insertSemitone (Scale.Major.semitone 7 - 1))
  | .Omit d => some (c.eraseSemitone (c.scale.semitone d))
  | .Add d => some (c.insertSemitone (c.scale.semitone d))
  | .Tension d => some (c.insertSemitone (c.scale.semitone d.num + d.acc.rank))
  | _ => none

/-- model/chord.rs `Chord::root_pitch` of the chord with its `octave` and
`inversion` fields: `12 + 12*octave + pitch + semitones[inversion] - 1`,
`none` on a relative key or an out-of-range inversion (both `.unwrap()`
panics or `Err` in the source). -/
def Chord.rootPitch (c : Chord) : Option Nat :=
  match c.semitones.get? c.inversion with
  | none => none
  | some s =>
    match c.key with
    | .Absolute p => some (12 + 12 * c.octave + p.val + s - 1)
    | .Relative _ => none

/-- `u8::abs_diff`. -/
def absDiff (a b : Nat) : Nat := if a ≤ b then b - a else a - b

/-- The `(octave, inversion)` pairs of the search in `match_pitches`, in
iteration order: `octave in 0..8` outer, `inversion in 0..n` inner. -/
def candidates (n : Nat) : List (Nat × Nat) :=
  (List.range 8).flatMap (fun o => (List.range n).map (fun i => (o, i)))

/-- The candidate root pitch `match_pitches` computes for octave `oi.1`
and inversion `oi.2` (the body of `root_pitch` with those fields set). -/
def rootAt (p : Pitch) (sems : List Nat) (oi : Nat × Nat) : Nat :=
  12 + 12 * oi.1 + p.val + sems.getD oi.2 0 - 1

/-- model/chord.rs `match_pitches`: running best `(diff, octave,
inversion)` starting from `(u8::MAX, 0, 0)`, updated on strict
improvement.  With no semitones the loops never run and `(0, 0)` is
returned; with a relative key the first iteration's
`root_pitch().unwrap()` panics, which is `none` here. -/
def matchPitches (base : Nat) (c : Chord) : Option (Nat × Nat) :=
  if c.semitones.length = 0 then some (0, 0)
  else
    match c.key with
    | .Relative _ => none
    | .Absolute p =>
      some (((candidates c.semitones.length).foldl
        (fun st oi =>
          if absDiff base (rootAt p c.semitones oi) < st.1 then
            (absDiff base (rootAt p c.semitones oi), oi)
          else st)
        (255, (0, 0))).2)

/-! The canonical modifier order.  `#[derive(PartialOrd, Ord)]` on
`Modifier` compares the variant discriminant first and the payload
lexicographically after it; `Degree` compares its number then its
accidental, and `Accidental` its declaration order.  `BTreeSet<Modifier>`
iterates in this order with duplicates collapsed. -/

/-- Variant discriminant of `Modifier` in declaration order. -/
def Modifier.tagNum : Modifier → Nat
  | .Major _ => 0
  | .Minor _ => 1
  | .MinorMajaor7 => 2
  | .Sus2 => 3
  | .Sus4 => 4
  | .Flat5th => 5
  | .Aug => 6
  | .Aug7 => 7
  | .Dim => 8
  | .Dim7 => 9
  | .Omit _ => 10
  | .Add _ => 11
  | .Tension _ => 12

/-- First payload component compared by the derived order. -/
def Modifier.p1 : Modifier → Nat
  | .Major n => n
  | .Minor n => n
  | .Omit n => n
  | .Add n => n
  | .Tension d => d.num
  | _ => 0

/-- Second payload component compared by the derived order (only
`Tension` has one: the accidental's discriminant). -/
def Modifier.p2 : Modifier → Nat
  | .Tension d => d.acc.rank
  | _ => 0

/-- The derived `Ord` of `Modifier` as a relation: lexicographic on
(variant discriminant, first payload, second payload). -/
def Modifier.mle (a b : Modifier) : Prop :=
  a.tagNum < b.tagNum ∨
    (a.tagNum = b.tagNum ∧ (a.p1 < b.p1 ∨ (a.p1 = b.p1 ∧ a.p2 ≤ b.p2)))

instance : DecidableRel Modifier.mle := fun a b => by
  unfold Modifier.mle; infer_instance

theorem Modifier.eq_of_parts {a b : Modifier} (h1 : a.tagNum = b.tagNum)
    (h2 : a.p1 = b.p1) (h3 : a.p2 = b.p2) : a = b := by
  cases a <;> cases b <;>
    simp_all [Modifier.tagNum, Modifier.p1, Modifier.p2]
  case Tension.Tension d e =>
    obtain ⟨dn, da⟩ := d
    obtain ⟨en, ea⟩ := e
    simp_all
    cases da <;> cases ea <;> simp_all [Accidental.rank]

instance : IsTotal Modifier Modifier.mle :=
  ⟨by intro a b; unfold Modifier.mle; omega⟩

instance : IsTrans Modifier Modifier.mle :=
  ⟨by intro a b c; unfold Modifier.mle; omega⟩

instance : IsAntisymm Modifier Modifier.mle := by
  constructor
  intro a b h1 h2
  unfold Modifier.mle at h1 h2
  exact Modifier.eq_of_parts (by omega) (by omega) (by omega)

/-- `BTreeSet::from_iter` on a list of modifiers, observed through the
set's ascending iteration order: the unique duplicate-free list of the
elements sorted by the derived `Ord`. -/
def canonical (ms : List Modifier) : List Modifier :=
  List.insertionSort Modifier.mle ms.dedup

/-- The canonical order ignores the textual order of the modifiers. -/
theorem canonical_perm_eq {ms₁ ms₂ : List Modifier} (h : ms₁.Perm ms₂) :
    canonical ms₁ = canonical ms₂ :=
  List.eq_of_perm_of_sorted
    ((List.perm_insertionSort _ _).trans (h.dedup.trans (List.perm_insertionSort _ _).symm))
    (List.sorted_insertionSort _ _) (List.sorted_insertionSort _ _)

/-- import/ast.rs `struct ChordNode` (identical in shape to the one in
model/ast.rs): the `BTreeSet<Modifier>` field is carried as its
ascending iteration order. -/
structure ChordNode where
  key : Key
  modifiers : List Modifier
  onKey : Option Key
  deriving DecidableEq, Repr

/-- import/ast.rs `ChordNode::to_chord`: start at octave 5, apply the
modifiers in ascending set order, then re-voice with `match_pitches`
against `12 * octave`. -/
def ChordNode.toChord (n : ChordNode) : Option Chord := do
  let c0 : Chord := { octave := 5, inversion := 0, key := n.key, semitones := [], onKey := n.onKey }
  let c ← n.modifiers.foldlM Chord.modify c0
  let oi ← matchPitches (12 * c.octave) c
  pure { c with octave := oi.1, inversion := oi.2 }

/-! The chord-symbol parser (parser/chord.rs), embedded as a
recursive-descent matcher over the character list.  Each nom alternation
is tried in the source's listed order; each regex of the source is an
anchored literal alternation and is embedded as such. -/

/-- Match a literal token at the head of the input and return the rest
(`nom::bytes::complete::tag`). -/
def stripTok (t : String) (s : List Char) : Option (List Char) :=
  if t.toList.isPrefixOf s then some (s.drop t.toList.length) else none

/-- `DEGREE_NUMBER_REGEX` = `^(3|5|6|7|9|11|13)`, alternatives tried in
order. -/
def parseNum (s : List Char) : Option (Nat × List Char) :=
  (stripTok "3" s).map (fun r => (3, r)) <|>
  (stripTok "5" s).map (fun r => (5, r)) <|>
  (stripTok "6" s).map (fun r => (6, r)) <|>
  (stripTok "7" s).map (fun r => (7, r)) <|>
  (stripTok "9" s).map (fun r => (9, r)) <|>
  (stripTok "11" s).map (fun r => (11, r)) <|>
  (stripTok "13" s).map (fun r => (13, r))

/-- `accidental_parser`: `^([b#])` then `Accidental::from_str`. -/
def parseAccidental (s : List Char) : Option (Accidental × List Char) :=
  match s with
  | 'b' :: r => some (.Flat, r)
  | '#' :: r => some (.Sharp, r)
  | _ => none

/-- `pitch_parser`: capture `^([CDEFGAB][#b]?)` then `Pitch::from_str` on
the captured text (every capturable text is in the fold table, so the
source's `.unwrap()` cannot panic). -/
def parsePitch (s : List Char) : Option (Pitch × List Char) :=
  match s with
  | c :: rest =>
    if c ∈ ['C', 'D', 'E', 'F', 'G', 'A', 'B'] then
      match rest with
      | d :: rest2 =>
        if d = '#' ∨ d = 'b' then
          (pitchFromStr (String.mk [c, d])).map (fun p => (p, rest2))
        else
          (pitchFromStr (String.mk [c])).map (fun p => (p, rest))
      | [] => (pitchFromStr (String.mk [c])).map (fun p => (p, rest))
    else none
  | [] => none

/-- `DEGREE_NAME_REGEX` = `^(IV|VII|VI|V|III|II|I)` composed with
`parser_roman_num`. -/
def parseRomanName (s : List Char) : Option (Nat × List Char) :=
  (stripTok "IV" s).map (fun r => (4, r)) <|>
  (stripTok "VII" s).map (fun r => (7, r)) <|>
  (stripTok "VI" s).map (fun r => (6, r)) <|>
  (stripTok "V" s).map (fun r => (5, r)) <|>
  (stripTok "III" s).map (fun r => (3, r)) <|>
  (stripTok "II" s).map (fun r => (2, r)) <|>
  (stripTok "I" s).map (fun r => (1, r))

/-- `degree_parser`: required accidental, roman numeral, then
`(Scale::Major.semitone(d) as i8 + a as i8) as u8` — again the
discriminant cast of the accidental. -/
def parseDegreeKey (s : List Char) : Option (Nat × List Char) := do
  let (a, r) ← parseAccidental s
  let (d, r2) ← parseRomanName r
  pure (Scale.Major.semitone d + a.rank, r2)

/-- `key_parser`: absolute pitch first, relative degree second. -/
def parseKey (s : List Char) : Option (Key × List Char) :=
  ((parsePitch s).map (fun pr => (Key.Absolute pr.1, pr.2))) <|>
  ((parseDegreeKey s).map (fun dr => (Key.Relative dr.1, dr.2)))

/-- `modifier_parser`, alternatives in the source's order. -/
def parseModifier (s : List Char) : Option (Modifier × List Char) :=
  ((stripTok "-5" s <|> stripTok "b5" s).map (fun r => (Modifier.Flat5th, r))) <|>
  ((stripTok "sus2" s).map (fun r => (Modifier.Sus2, r))) <|>
  ((stripTok "sus4" s).map (fun r => (Modifier.Sus4, r))) <|>
  ((stripTok "dim7" s).map (fun r => (Modifier.Dim7, r))) <|>
  ((stripTok "dim" s <|> stripTok "o" s).map (fun r => (Modifier.Dim, r))) <|>
  ((stripTok "aug7" s).map (fun r => (Modifier.Aug7, r))) <|>
  ((stripTok "aug" s <|> stripTok "+" s).map (fun r => (Modifier.Aug, r))) <|>
  (do
    let r ← stripTok "add" s
    let (n, r2) ← parseNum r
    pure (Modifier.Add n, r2)) <|>
  (do
    let r ← stripTok "omit" s <|> stripTok "no" s
    let (n, r2) ← parseNum r
    pure (Modifier.Omit n, r2)) <|>
  ((stripTok "mM7" s).map (fun r => (Modifier.MinorMajaor7, r))) <|>
  (do
    let r ← stripTok "maj" s <|> stripTok "M" s
    match parseNum r with
    | some (n, r2) => pure (Modifier.Major n, r2)
    | none => pure (Modifier.Major 5, r)) <|>
  (do
    let r ← stripTok "m" s
    match parseNum r with
    | some (n, r2) => pure (Modifier.Minor n, r2)
    | none => pure (Modifier.Minor 5, r)) <|>
  (do
    let (a, r) ← parseAccidental s
    let (n, r2) ← parseNum r
    pure (Modifier.Tension ⟨n, a⟩, r2)) <|>
  ((parseNum s).map (fun nr => (Modifier.Major nr.1, nr.2)))

/-- `many0(modifier_parser)`.  Every modifier consumes at least one
character, so `fuel = length of the input` suffices for full fidelity. -/
def parseManyMods : Nat → List Char → List Modifier × List Char
  | 0, s => ([], s)
  | fuel + 1, s =>
    match parseModifier s with
    | some (m, r) =>
      let mr := parseManyMods fuel r
      (m :: mr.1, mr.2)
    | none => ([], s)

/-- One element of the tension list: optional accidental (default
`Natural`), then a degree number. -/
def parseTensionItem (s : List Char) : Option (Modifier × List Char) :=
  match parseAccidental s with
  | some (a, r) => (parseNum r).map (fun nr => (Modifier.Tension ⟨nr.1, a⟩, nr.2))
  | none => (parseNum s).map (fun nr => (Modifier.Tension ⟨nr.1, Accidental.Natural⟩, nr.2))

/-- The comma-separated tail of `separated_list1`. -/
def parseTensionTail : Nat → List Char → List Modifier × List Char
  | 0, s => ([], s)
  | fuel + 1, s =>
    match stripTok "," s with
    | none => ([], s)
    | some r =>
      match parseTensionItem r with
      | none => ([], s)
      | some (m, r2) =>
        let mr := parseTensionTail fuel r2
        (m :: mr.1, mr.2)

/-- `tensions_parser`: a parenthesised, comma-separated, nonempty list of
tensions. -/
def parseTensions (s : List Char) : Option (List Modifier × List Char) := do
  let r ← stripTok "(" s
  let (m, r2) ← parseTensionItem r
  let tail := parseTensionTail r2.length r2
  let r3 ← stripTok ")" tail.2
  pure (m :: tail.1, r3)

/-- `chord_node_parser`: key, modifiers, optional tensions, optional
on-chord; the modifier set is `BTreeSet::from_iter` of `Major(5)`
followed by the parsed modifiers and tensions. -/
def parseChordNode (s : List Char) : Option (ChordNode × List Char) := do
  let (key, r1) ← parseKey s
  let mods := parseManyMods r1.length r1
  let tens :=
    match parseTensions mods.2 with
    | some (ts, r) => (ts, r)
    | none => ([], mods.2)
  let onp :=
    match (do
      let r ← stripTok "/" tens.2
      parseKey r) with
    | some (k, r) => (some k, r)
    | none => (none, tens.2)
  pure ({ key := key, modifiers := canonical (Modifier.Major 5 :: (mods.1 ++ tens.1)), onKey := onp.1 },
    onp.2)

/-- Parse a whole chord symbol (the parser must consume the entire
string) and resolve it; the observable of the claims is the resolved
semitone set. -/
def resolveStr (s : String) : Option (List Nat) :=
  match parseChordNode s.toList with
  | some (n, []) => n.toChord.map Chord.semitones
  | _ => none

/-- midi.rs `Score::measure_unit_size`: node counts are grouped by the
ranges 1, 2, 3..=4, 5..=8, 9..=16; anything else (0 or more than 16) is
the `too many nodes` error; the unit is `16 / len` of the group bound. -/
def measureUnitSize (n : Nat) : Option Nat :=
  if n = 1 then some (16 / 1)
  else if n = 2 then some (16 / 2)
  else if 3 ≤ n ∧ n ≤ 4 then some (16 / 4)
  else if 5 ≤ n ∧ n ≤ 8 then some (16 / 8)
  else if 9 ≤ n ∧ n ≤ 16 then some (16 / 16)
  else none

/-- C1: the spec's six triad/seventh test vectors, evaluated through the
embedded parser and resolution engine.  Five agree with the spec, but
`"Cdim7"` resolves to semitones 0, 3, 6, 10 — the `Dim7` arm inserts
`Scale::Major.semitone(7) - 1` (one semitone below the major seventh,
10), not the diminished seventh two below (9) — so `Cdim7` coincides
with `Cm7b5` instead of the documented 0, 3, 6, 9. -/
theorem c1_triad_vectors :
    resolveStr "C" = some [0, 4, 7] ∧
    resolveStr "Cm" = some [0, 3, 7] ∧
    resolveStr "CM7" = some [0, 4, 7, 11] ∧
    resolveStr "Cm7b5" = some [0, 3, 6, 10] ∧
    resolveStr "Caug" = some [0, 4, 8] ∧
    resolveStr "Cdim7" = some [0, 3, 6, 10] ∧
    resolveStr "Cdim7" ≠ some [0, 3, 6, 9] := by
  refine ⟨rfl, rfl, rfl, rfl, rfl, rfl, ?_⟩
  decide

/-- C2 counterexample: measures of 3 or 5 nodes do not fail as the claim
requires; they are accepted with units 4 and 2. -/
theorem c2_counterexample :
    measureUnitSize 3 = some 4 ∧ measureUnitSize 5 = some 2 ∧
    ¬(3 ∈ ([1, 2, 4, 8, 16] : List Nat)) := by
  decide

/-- C2 amended: `measure_unit_size` fails exactly for a node count of 0
or more than 16; every count from 1 to 16 is accepted, rounded up to the
next of 1, 2, 4, 8, 16, and counts that are exactly 1, 2, 4, 8 or 16 get
unit `16 / count`. -/
theorem c2_amended :
    (∀ n : Nat, measureUnitSize n = none ↔ (n = 0 ∨ 17 ≤ n)) ∧
    measureUnitSize 1 = some 16 ∧ measureUnitSize 2 = some 8 ∧
    measureUnitSize 3 = some 4 ∧ measureUnitSize 4 = some 4 ∧
    measureUnitSize 5 = some 2 ∧ measureUnitSize 8 = some 2 ∧
    measureUnitSize 9 = some 1 ∧ measureUnitSize 16 = some 1 ∧
    measureUnitSize 17 = none := by
  refine ⟨?_, rfl, rfl, rfl, rfl, rfl, rfl, rfl, rfl, rfl⟩
  intro n
  unfold measureUnitSize
  split_ifs <;> simp <;> omega

/-- C3: the `Tension` arm of `Chord::modify` adds the accidental's enum
discriminant (`as u8`: Natural 0, Sharp 1, Flat 2), not the offset of
the source's own `From<Accidental> for i8` conversion (Natural 0,
Sharp 1, Flat -1).  A `(b9)` tension on `"C7(b9)"` therefore inserts
semitone 14 + 2 = 16 rather than the documented 14 - 1 = 13. -/
theorem c3_tension_flat :
    Accidental.toI8 .Flat = -1 ∧
    Accidental.rank .Flat = 2 ∧
    (Chord.mk 5 0 (.Absolute .C) [0, 4, 7, 11] none).modify (.Tension ⟨9, .Flat⟩) =
      some (Chord.mk 5 0 (.Absolute .C) [0, 4, 7, 11, 16] none) ∧
    resolveStr "C7(b9)" = some [0, 4, 7, 11, 16] ∧
    ¬(13 ∈ ([0, 4, 7, 11, 16] : List Nat)) := by
  refine ⟨rfl, rfl, rfl, rfl, ?_⟩
  decide

/-- C7 counterexample: the grammar's fold table sends `"Cb"` to `Cs`
(C sharp), not to `B` as the claim states. -/
theorem c7_counterexample :
    pitchFromStr "Cb" = some Pitch.Cs ∧ some Pitch.Cs ≠ some Pitch.B := by
  refine ⟨rfl, ?_⟩
  decide

/-- C7 amended: the enharmonic folding as the code implements it —
Db=C#, Eb=D#, Fb=E, E#=F, Gb=F#, Ab=G#, Bb=A#, and both B# and Cb fold
to C#. -/
theorem c7_amended :
    pitchFromStr "Db" = pitchFromStr "C#" ∧ pitchFromStr "Db" = some Pitch.Cs ∧
    pitchFromStr "Eb" = pitchFromStr "D#" ∧ pitchFromStr "Eb" = some Pitch.Ds ∧
    pitchFromStr "Fb" = pitchFromStr "E" ∧ pitchFromStr "Fb" = some Pitch.E ∧
    pitchFromStr "E#" = pitchFromStr "F" ∧ pitchFromStr "E#" = some Pitch.F ∧
    pitchFromStr "Gb" = pitchFromStr "F#" ∧ pitchFromStr "Gb" = some Pitch.Fs ∧
    pitchFromStr "Ab" = pitchFromStr "G#" ∧ pitchFromStr "Ab" = some Pitch.Gs ∧
    pitchFromStr "Bb" = pitchFromStr "A#" ∧ pitchFromStr "Bb" = some Pitch.As ∧
    pitchFromStr "B#" = some Pitch.Cs ∧ pitchFromStr "Cb" = some Pitch.Cs := by
  decide

/-- C4: resolution is independent of the textual order of the modifiers.
The parser collects `Major(5)` plus the written modifiers and tensions
into an order-independent unique set iterated in the fixed canonical
order (variant tag — Major, Minor, MinorMajaor7, Sus2, Sus4, Flat5th,
Aug, Aug7, Dim, Dim7, Omit, Add, Tension — then payload), so chord
symbols listing the same modifiers in different orders build the same
`ChordNode` and resolve to the same `Chord`. -/
theorem c4_order_independent (key : Key) (onk : Option Key)
    (ms₁ ms₂ : List Modifier) (h : ms₁.Perm ms₂) :
    ChordNode.mk key (canonical (.Major 5 :: ms₁)) onk =
      ChordNode.mk key (canonical (.Major 5 :: ms₂)) onk ∧
    (ChordNode.mk key (canonical (.Major 5 :: ms₁)) onk).toChord =
      (ChordNode.mk key (canonical (.Major 5 :: ms₂)) onk).toChord := by
  have hc : canonical (.Major 5 :: ms₁) = canonical (.Major 5 :: ms₂) :=
    canonical_perm_eq (h.cons _)
  rw [hc]
  exact ⟨rfl, rfl⟩

/-- C4 witness: the modifier multiset of `"Cm7b5"` in its two textual
orders (`Minor 7` then `Flat5th`, and the reverse) resolves to the same
chord node and the same chord. -/
theorem c4_witness :
    ChordNode.mk (.Absolute .C) (canonical [.Major 5, .Minor 7, .Flat5th]) none =
      ChordNode.mk (.Absolute .C) (canonical [.Major 5, .Flat5th, .Minor 7]) none ∧
    (ChordNode.mk (.Absolute .C) (canonical [.Major 5, .Minor 7, .Flat5th]) none).toChord =
      (ChordNode.mk (.Absolute .C) (canonical [.Major 5, .Flat5th, .Minor 7]) none).toChord :=
  c4_order_independent (.Absolute .C) none [.Minor 7, .Flat5th] [.Flat5th, .Minor 7]
    (by decide)

/-! The running-best fold of `match_pitches`, characterised: starting
from a sentinel value that some candidate beats, the fold returns the
first candidate attaining the minimum. -/

/-- The champion-update fold of `match_pitches`, abstracted over the
candidate cost `g`. -/
def bestFold {α : Type} (g : α → Nat) (init : Nat × α) (l : List α) : Nat × α :=
  l.foldl (fun st a => if g a < st.1 then (g a, a) else st) init

theorem bestFold_no_update {α : Type} (g : α → Nat) (l : List α) (d : Nat) (x : α)
    (h : ∀ a ∈ l, d ≤ g a) : bestFold g (d, x) l = (d, x) := by
  induction l with
  | nil => rfl
  | cons a as ih =>
    have hd : ¬ g a < d := not_lt.mpr (h a (List.mem_cons_self a as))
    simp only [bestFold, List.foldl_cons, if_neg hd]
    exact ih (fun b hb => h b (List.mem_cons_of_mem a hb))

theorem bestFold_first {α : Type} (g : α → Nat) (l : List α) (d : Nat) (x : α)
    (h : ∃ a ∈ l, g a < d) :
    ∃ l₁ l₂, l = l₁ ++ (bestFold g (d, x) l).2 :: l₂ ∧
      (bestFold g (d, x) l).1 = g (bestFold g (d, x) l).2 ∧
      g (bestFold g (d, x) l).2 < d ∧
      (∀ a ∈ l₁, g (bestFold g (d, x) l).2 < g a) ∧
      (∀ a ∈ l₂, g (bestFold g (d, x) l).2 ≤ g a) := by
  induction l generalizing d x with
  | nil => simp at h
  | cons a as ih =>
    by_cases hga : g a < d
    · have hstep : bestFold g (d, x) (a :: as) = bestFold g (g a, a) as := by
        simp [bestFold, hga]
      by_cases hm : ∃ b ∈ as, g b < g a
      · obtain ⟨l₁, l₂, hsplit, hval, hlt, hl₁, hl₂⟩ := ih (g a) a hm
        rw [hstep]
        exact ⟨a :: l₁, l₂, by rw [List.cons_append, ← hsplit], hval,
          lt_trans hlt hga,
          fun b hb => by
            rcases List.mem_cons.mp hb with hb | hb
            · exact hb ▸ hlt
            · exact hl₁ b hb,
          hl₂⟩
      · push_neg at hm
        have hfix : bestFold g (g a, a) as = (g a, a) := bestFold_no_update g as (g a) a hm
        rw [hstep, hfix]
        exact ⟨[], as, rfl, rfl, hga, by simp, hm⟩
    · have hstep : bestFold g (d, x) (a :: as) = bestFold g (d, x) as := by
        simp [bestFold, hga]
      have hm : ∃ b ∈ as, g b < d := by
        obtain ⟨b, hb, hbd⟩ := h
        rcases List.mem_cons.mp hb with rfl | hb
        · exact absurd hbd hga
        · exact ⟨b, hb, hbd⟩
      obtain ⟨l₁, l₂, hsplit, hval, hlt, hl₁, hl₂⟩ := ih d x hm
      rw [hstep]
      exact ⟨a :: l₁, l₂, by rw [List.cons_append, ← hsplit], hval, hlt,
        fun b hb => by
          rcases List.mem_cons.mp hb with hb | hb
          · exact hb ▸ lt_of_lt_of_le hlt (not_lt.mp hga)
          · exact hl₁ b hb,
        hl₂⟩

theorem pitch_val_le (p : Pitch) : p.val ≤ 11 := by
  cases p <;> decide

/-- C5: for a chord with an absolute root and at least one semitone, the
voicing search returns the `(octave, inversion)` pair, octave below 8 and
inversion below the note count, that minimises the absolute difference
between the candidate root pitch and the target, ties going to the first
pair in ascending (octave, inversion) iteration order.  The semitone
bound keeps every candidate root pitch inside `u8`, so the source's `u8`
arithmetic agrees with the `Nat` model. -/
theorem c5_match_pitches (c : Chord) (p : Pitch) (base : Nat)
    (hk : c.key = .Absolute p) (hne : c.semitones ≠ [])
    (hbase : base ≤ 255) (hs : ∀ s ∈ c.semitones, s ≤ 132) :
    ∃ o i l₁ l₂,
      matchPitches base c = some (o, i) ∧
      candidates c.semitones.length = l₁ ++ (o, i) :: l₂ ∧
      (∀ x ∈ l₁,
        absDiff base (rootAt p c.semitones (o, i)) < absDiff base (rootAt p c.semitones x)) ∧
      (∀ x ∈ l₂,
        absDiff base (rootAt p c.semitones (o, i)) ≤ absDiff base (rootAt p c.semitones x)) := by
  obtain ⟨s₀, tl, hsem⟩ := List.exists_cons_of_ne_nil hne
  have hlen : c.semitones.length ≠ 0 := by simp [hsem]
  have hmem0 : (0, 0) ∈ candidates c.semitones.length := by
    have h0 : (0 : Nat) < c.semitones.length := Nat.pos_of_ne_zero hlen
    simp only [candidates, List.mem_flatMap, List.mem_map, List.mem_range]
    exact ⟨0, by omega, 0, h0, rfl⟩
  have hbeat : absDiff base (rootAt p c.semitones (0, 0)) < 255 := by
    have hr : rootAt p c.semitones (0, 0) = 12 + p.val + s₀ - 1 := by
      simp [rootAt, hsem]
    have hps : p.val ≤ 11 := pitch_val_le p
    have hs₀ : s₀ ≤ 132 := hs s₀ (by simp [hsem])
    rw [hr]
    unfold absDiff
    split_ifs <;> omega
  have hex : ∃ a ∈ candidates c.semitones.length,
      absDiff base (rootAt p c.semitones a) < 255 := ⟨(0, 0), hmem0, hbeat⟩
  obtain ⟨l₁, l₂, hsplit, _, _, hl₁, hl₂⟩ :=
    bestFold_first (fun oi => absDiff base (rootAt p c.semitones oi))
      (candidates c.semitones.length) 255 (0, 0) hex
  refine ⟨_, _, l₁, l₂, ?_, ?_, hl₁, hl₂⟩
  · simp only [matchPitches, hk, if_neg hlen]
    rfl
  · simpa [bestFold] using hsplit

/-- C5 witness: the search for a C-major triad at target pitch 60. -/
theorem c5_witness :
    ∃ o i l₁ l₂,
      matchPitches 60 (Chord.mk 5 0 (.Absolute .C) [0, 4, 7] none) = some (o, i) ∧
      candidates (Chord.mk 5 0 (.Absolute .C) [0, 4, 7] none).semitones.length =
        l₁ ++ (o, i) :: l₂ ∧
      (∀ x ∈ l₁,
        absDiff 60 (rootAt .C (Chord.mk 5 0 (.Absolute .C) [0, 4, 7] none).semitones (o, i)) <
          absDiff 60 (rootAt .C (Chord.mk 5 0 (.Absolute .C) [0, 4, 7] none).semitones x)) ∧
      (∀ x ∈ l₂,
        absDiff 60 (rootAt .C (Chord.mk 5 0 (.Absolute .C) [0, 4, 7] none).semitones (o, i)) ≤
          absDiff 60 (rootAt .C (Chord.mk 5 0 (.Absolute .C) [0, 4, 7] none).semitones x)) :=
  c5_match_pitches (Chord.mk 5 0 (.Absolute .C) [0, 4, 7] none) .C 60 rfl
    (by decide) (by decide) (by decide)

/-! The score tree (model/ast.rs and import/ast.rs declare the same
shape), the transposition pass (model/key.rs, model/transform.rs) and
the rhythm interpreter (midi.rs). -/

/-- ast `enum Node`. -/
inductive Node
  | Chord (cn : ChordNode)
  | Rest
  | Sustain
  | Repeat
  deriving DecidableEq, Repr

/-- ast `enum Ast`. -/
inductive Ast
  | Comment (s : String)
  | Measure (nodes : List Node) (br : Bool)
  | Score (nodes : List Ast)

/-- model/key.rs `Key::into_degree`: absolute keys become the distance to
the tonic, relative keys are untouched. -/
def Key.intoDegree (k : Key) (tonic : Pitch) : Key :=
  match k with
  | .Absolute p => .Relative (p.diff tonic)
  | .Relative _ => k

/-- model/key.rs `Key::into_pitch`: `Pitch::try_from((degree + pitch) %
12).unwrap()`; the argument is always below 12 so the unwrap cannot
panic, and the (unreachable) `none` falls back to `C`. -/
def Key.intoPitch (k : Key) (tonic : Pitch) : Key :=
  match k with
  | .Absolute _ => k
  | .Relative d => .Absolute ((pitchTryFrom ((d + tonic.val) % 12)).getD .C)

/-- model/transform.rs: per chord node, rewrite the root key and the bass
key; other nodes are untouched. -/
def Node.intoDegree (n : Node) (tonic : Pitch) : Node :=
  match n with
  | .Chord c => .Chord ⟨c.key.intoDegree tonic, c.modifiers, c.onKey.map (Key.intoDegree · tonic)⟩
  | _ => n

def Node.intoPitch (n : Node) (tonic : Pitch) : Node :=
  match n with
  | .Chord c => .Chord ⟨c.key.intoPitch tonic, c.modifiers, c.onKey.map (Key.intoPitch · tonic)⟩
  | _ => n

mutual

/-- model/transform.rs `Ast::into_degree`. -/
def Ast.intoDegree : Ast → Pitch → Ast
  | .Score nodes, tonic => .Score (intoDegreeList nodes tonic)
  | .Measure nodes br, tonic => .Measure (nodes.map (Node.intoDegree · tonic)) br
  | .Comment s, _ => .Comment s

def intoDegreeList : List Ast → Pitch → List Ast
  | [], _ => []
  | a :: as, tonic => Ast.intoDegree a tonic :: intoDegreeList as tonic

end

mutual

/-- model/transform.rs `Ast::into_pitch`. -/
def Ast.intoPitch : Ast → Pitch → Ast
  | .Score nodes, tonic => .Score (intoPitchList nodes tonic)
  | .Measure nodes br, tonic => .Measure (nodes.map (Node.intoPitch · tonic)) br
  | .Comment s, _ => .Comment s

def intoPitchList : List Ast → Pitch → List Ast
  | [], _ => []
  | a :: as, tonic => Ast.intoPitch a tonic :: intoPitchList as tonic

end

/-- All keys of a node (root and bass) are absolute. -/
def Node.allAbsolute : Node → Bool
  | .Chord c => c.key.isAbsolute && (match c.onKey with | some k => k.isAbsolute | none => true)
  | _ => true

mutual

/-- All keys in the tree are absolute. -/
def Ast.allAbsolute : Ast → Bool
  | .Score nodes => astListAllAbsolute nodes
  | .Measure nodes _ => nodes.all Node.allAbsolute
  | .Comment _ => true

def astListAllAbsolute : List Ast → Bool
  | [] => true
  | a :: as => a.allAbsolute && astListAllAbsolute as

end

theorem key_roundtrip (k : Key) (tonic : Pitch) (h : k.isAbsolute = true) :
    (k.intoDegree tonic).intoPitch tonic = k := by
  match k with
  | .Relative _ => simp [Key.isAbsolute] at h
  | .Absolute p =>
    have hval : ∀ q : Pitch, pitchTryFrom q.val = some q := by
      intro q; cases q <;> rfl
    have htv : tonic.val ≤ 11 := pitch_val_le tonic
    have hpv : p.val ≤ 11 := pitch_val_le p
    have hmod : (p.diff tonic + tonic.val) % 12 = p.val := by
      unfold Pitch.diff
      rw [Nat.mod_add_mod]
      have h1 : p.val + 12 - tonic.val + tonic.val = p.val + 12 := by omega
      rw [h1, Nat.add_mod_right, Nat.mod_eq_of_lt (by omega)]
    simp [Key.intoDegree, Key.intoPitch, hmod, hval]

theorem node_roundtrip (n : Node) (tonic : Pitch) (h : n.allAbsolute = true) :
    (n.intoDegree tonic).intoPitch tonic = n := by
  match n with
  | .Rest | .Sustain | .Repeat => rfl
  | .Chord ⟨k, mods, onk⟩ =>
    match onk with
    | none =>
      simp only [Node.allAbsolute, Bool.and_true] at h
      show Node.Chord ⟨(k.intoDegree tonic).intoPitch tonic, mods, none⟩ =
        Node.Chord ⟨k, mods, none⟩
      rw [key_roundtrip k tonic h]
    | some k₂ =>
      simp only [Node.allAbsolute, Bool.and_eq_true] at h
      show Node.Chord ⟨(k.intoDegree tonic).intoPitch tonic, mods,
          some ((k₂.intoDegree tonic).intoPitch tonic)⟩ = Node.Chord ⟨k, mods, some k₂⟩
      rw [key_roundtrip k tonic h.1, key_roundtrip k₂ tonic h.2]

mutual

theorem ast_roundtrip (a : Ast) (tonic : Pitch) (h : a.allAbsolute = true) :
    (a.intoDegree tonic).intoPitch tonic = a := by
  match a with
  | .Comment s => rfl
  | .Measure nodes br =>
    simp only [Ast.allAbsolute, List.all_eq_true] at h
    simp only [Ast.intoDegree, Ast.intoPitch, List.map_map, Ast.Measure.injEq, and_true]
    calc nodes.map ((Node.intoPitch · tonic) ∘ (Node.intoDegree · tonic))
        = nodes.map id := by
          apply List.map_congr_left
          intro n hn
          exact node_roundtrip n tonic (h n hn)
      _ = nodes := List.map_id nodes
  | .Score nodes =>
    simp only [Ast.allAbsolute] at h
    simp only [Ast.intoDegree, Ast.intoPitch, Ast.Score.injEq]
    exact ast_list_roundtrip nodes tonic h

theorem ast_list_roundtrip (l : List Ast) (tonic : Pitch)
    (h : astListAllAbsolute l = true) :
    intoPitchList (intoDegreeList l tonic) tonic = l := by
  match l with
  | [] => rfl
  | a :: as =>
    simp only [astListAllAbsolute, Bool.and_eq_true] at h
    simp only [intoDegreeList, intoPitchList, List.cons.injEq]
    exact ⟨ast_roundtrip a tonic h.1, ast_list_roundtrip as tonic h.2⟩

end

/-- C6: on a score whose chord root keys and bass keys are all absolute,
converting to tonic-relative form and back with the same tonic
reproduces the score exactly, for any tonic. -/
theorem c6_transposition_inverse (a : Ast) (tonic : Pitch)
    (h : a.allAbsolute = true) :
    (a.intoDegree tonic).intoPitch tonic = a :=
  ast_roundtrip a tonic h

/-- C6 witness: a two-measure score with absolute chords (roots C and A,
one bass key E) round-trips through tonic D. -/
theorem c6_witness :
    ((Ast.Score
        [Ast.Measure [Node.Chord ⟨.Absolute .C, [.Major 5], none⟩] false,
         Ast.Measure [Node.Chord ⟨.Absolute .A, [.Major 5, .Minor 7], some (.Absolute .E)⟩,
                      Node.Sustain] true,
         Ast.Comment "x"]).intoDegree .D).intoPitch .D =
      Ast.Score
        [Ast.Measure [Node.Chord ⟨.Absolute .C, [.Major 5], none⟩] false,
         Ast.Measure [Node.Chord ⟨.Absolute .A, [.Major 5, .Minor 7], some (.Absolute .E)⟩,
                      Node.Sustain] true,
         Ast.Comment "x"] :=
  c6_transposition_inverse
    (Ast.Score
      [Ast.Measure [Node.Chord ⟨.Absolute .C, [.Major 5], none⟩] false,
       Ast.Measure [Node.Chord ⟨.Absolute .A, [.Major 5, .Minor 7], some (.Absolute .E)⟩,
                    Node.Sustain] true,
       Ast.Comment "x"]) .D rfl

/-! The rhythm interpreter of midi.rs. -/

/-- Rotate the chord's pitch list once for an inversion step:
`remove(0)` then `push(first + 12)` (a no-op on the empty list, which
the source never reaches because the inversion is 0 there). -/
def rotateOnce : List Nat → List Nat
  | [] => []
  | x :: xs => xs ++ [x + 12]

def rotateN : Nat → List Nat → List Nat
  | 0, l => l
  | k + 1, l => rotateN k (rotateOnce l)

/-- midi.rs `into_note_numbers`: fails on a relative root key; a relative
bass key is silently dropped; pitches are `12*octave + root + semitone`,
rotated by the inversion, the bass added one octave below, and finally
shifted by 12 (`NoteNumber::new(12 + s)`).  The bass at octave 0 would
underflow `u8` in the source (a panic), `none` here; the chords the
resolver produces always sit well above octave 0. -/
def intoNoteNumbers (c : Chord) : Option (List Nat) :=
  match c.key with
  | .Relative _ => none
  | .Absolute p =>
    let onp : Option Pitch := c.onKey.bind (fun k =>
      match k with
      | .Absolute q => some q
      | .Relative _ => none)
    let base := c.semitones.map (fun s => 12 * c.octave + p.val + s)
    let rotated := rotateN c.inversion base
    match onp with
    | some q =>
      if c.octave = 0 then none
      else some ((rotated ++ [12 * (c.octave - 1) + q.val]).map (fun s => 12 + s))
    | none => some (rotated.map (fun s => 12 + s))

/-- midi.rs `struct Note`: the resolved chord's note numbers (absent for
a rest) and a duration in subunits. -/
structure Note where
  chord : Option (List Nat)
  duration : Nat
  deriving DecidableEq, Repr

/-- midi.rs `struct Score`: the interpreter state, named `ScoreSt` here
to keep it apart from the score tree. -/
structure ScoreSt where
  notes : List Note
  sustain : Nat
  rest : Nat
  pre : Option Chord
  deriving DecidableEq, Repr

def initState : ScoreSt := ⟨[], 0, 0, none⟩

def Node.isSustain : Node → Bool
  | .Sustain => true
  | _ => false

def Node.isRest : Node → Bool
  | .Rest => true
  | _ => false

/-- The sustain flush (midi.rs lines 92-100, repeated verbatim at lines
146-154): when a sustain is pending, emit one Note carrying the held
chord's note numbers (or nothing if no chord was ever held) and clear
the sustain counter.  Fails when the held chord has a relative key. -/
def flushS (st : ScoreSt) : Option ScoreSt :=
  if st.sustain ≠ 0 then
    match st.pre with
    | some pre =>
      (intoNoteNumbers pre).map (fun ns =>
        { st with notes := st.notes ++ [⟨some ns, st.sustain⟩], sustain := 0 })
    | none => some { st with notes := st.notes ++ [⟨none, st.sustain⟩], sustain := 0 }
  else some st

/-- The rest flush (midi.rs lines 101-104). -/
def flushR (st : ScoreSt) : ScoreSt :=
  if st.rest ≠ 0 then { st with notes := st.notes ++ [⟨none, st.rest⟩], rest := 0 }
  else st

/-- midi.rs `Score::interpret_node`: flush the pending sustain unless
the node sustains, flush the pending rest unless the node rests, then
dispatch on the node. -/
def interpretNode (st : ScoreSt) (node : Node) (dur : Nat) : Option ScoreSt :=
  (if node.isSustain then some st else flushS st).bind (fun st1 =>
    let st2 := if node.isRest then st1 else flushR st1
    match node with
    | .Chord cn => (cn.toChord).map (fun c => { st2 with pre := some c, sustain := dur })
    | .Repeat => some { st2 with sustain := dur }
    | .Sustain => some { st2 with sustain := st2.sustain + dur }
    | .Rest => some { st2 with rest := st2.rest + dur })

/-- The node loop of the `Ast::Measure` arm. -/
def interpretNodes (st : ScoreSt) (nodes : List Node) (dur : Nat) : Option ScoreSt :=
  nodes.foldlM (fun s n => interpretNode s n dur) st

mutual

/-- midi.rs `Score::interpret`: comments are skipped; a score interprets
its children in order and then flushes a pending sustain; a measure
computes its unit (`measure_unit_size(len).unwrap()` — the error case is
a panic, `none` here) and feeds every node through `interpret_node`. -/
def interpretAst (st : ScoreSt) : Ast → Option ScoreSt
  | .Comment _ => some st
  | .Score nodes => (interpretList st nodes).bind flushS
  | .Measure nodes _ =>
    match measureUnitSize nodes.length with
    | none => none
    | some dur => interpretNodes st nodes dur

def interpretList (st : ScoreSt) : List Ast → Option ScoreSt
  | [] => some st
  | a :: as => (interpretAst st a).bind (fun st2 => interpretList st2 as)

end

/-- midi.rs `dump`: interpret from the fresh state; the observable is the
emitted note list. -/
def interpretTop (a : Ast) : Option (List Note) :=
  (interpretAst initState a).map ScoreSt.notes

theorem interpretList_append (st : ScoreSt) (l₁ l₂ : List Ast) :
    interpretList st (l₁ ++ l₂) = (interpretList st l₁).bind (fun s => interpretList s l₂) := by
  induction l₁ generalizing st with
  | nil => simp [interpretList]
  | cons a as ih =>
    simp only [List.cons_append, interpretList, Option.bind_assoc]
    cases interpretAst st a with
    | none => rfl
    | some s => simpa using ih s

theorem flushS_some {s s' : ScoreSt} (h : flushS s = some s') :
    s'.sustain = 0 ∧ s'.pre = s.pre ∧ s'.rest = s.rest := by
  unfold flushS at h
  split_ifs at h with hsus
  · split at h
    · rename_i pre hp
      cases hin : intoNoteNumbers pre with
      | none => rw [hin] at h; simp at h
      | some ns =>
        rw [hin] at h
        simp only [Option.map_some', Option.some.injEq] at h
        subst h
        exact ⟨rfl, rfl, rfl⟩
    · simp only [Option.some.injEq] at h
      subst h
      exact ⟨rfl, rfl, rfl⟩
  · simp only [Option.some.injEq] at h
    subst h
    exact ⟨by omega, rfl, rfl⟩

theorem flushS_of_sustain_zero {s : ScoreSt} (h : s.sustain = 0) : flushS s = some s := by
  simp [flushS, h]

theorem interpretNode_rest (s : ScoreSt) (u : Nat) :
    interpretNode s .Rest u = (flushS s).map (fun s1 => { s1 with rest := s1.rest + u }) := by
  cases hfs : flushS s with
  | none => simp [interpretNode, Node.isSustain, hfs]
  | some s1 => simp [interpretNode, Node.isSustain, Node.isRest, hfs]

theorem interpretNodes_rest_zero (k u : Nat) (s : ScoreSt) (h : s.sustain = 0) :
    interpretNodes s (List.replicate k .Rest) u = some { s with rest := s.rest + k * u } := by
  induction k generalizing s with
  | zero =>
    have h0 : s.rest + 0 * u = s.rest := by omega
    rw [h0]
    rfl
  | succ k ih =>
    rw [List.replicate_succ]
    show (interpretNode s .Rest u).bind _ = _
    rw [interpretNode_rest, flushS_of_sustain_zero h]
    simp only [Option.map_some', Option.some_bind]
    show interpretNodes { s with rest := s.rest + u } (List.replicate k .Rest) u = _
    rw [ih { s with rest := s.rest + u } h]
    have harith : s.rest + u + k * u = s.rest + (k + 1) * u := by ring
    simp only [harith]

theorem rest_measure_eq (s : ScoreSt) (k u : Nat) (br : Bool) (hk : 1 ≤ k)
    (hu : measureUnitSize k = some u) :
    interpretAst s (.Measure (List.replicate k .Rest) br) =
      (flushS s).map (fun s1 => { s1 with rest := s1.rest + k * u }) := by
  show (match measureUnitSize (List.replicate k (Node.Rest)).length with
    | none => none
    | some dur => interpretNodes s (List.replicate k .Rest) dur) = _
  rw [List.length_replicate, hu]
  obtain ⟨k', rfl⟩ : ∃ k', k = k' + 1 := ⟨k - 1, by omega⟩
  rw [List.replicate_succ]
  show (interpretNode s .Rest u).bind _ = _
  rw [interpretNode_rest]
  cases hfs : flushS s with
  | none => rfl
  | some s1 =>
    have h0 := (flushS_some hfs).1
    simp only [Option.map_some', Option.some_bind]
    show interpretNodes { s1 with rest := s1.rest + u } (List.replicate k' .Rest) u = _
    rw [interpretNodes_rest_zero k' u { s1 with rest := s1.rest + u } h0]
    have harith : s1.rest + u + k' * u = s1.rest + (k' + 1) * u := by ring
    simp only [harith]

/-- C9 counterexample: the claim says the emitted note list never ends
in a rest note, but the one-sustain score emits exactly one note whose
chord is absent — a trailing rest note. -/
theorem c9_counterexample :
    interpretTop (.Score [.Measure [.Sustain] false]) = some [⟨none, 16⟩] ∧
    (Note.mk none 16).chord = none := by
  exact ⟨rfl, rfl⟩

/-- C9 amended: rest accumulated at the end of a score is silently
discarded — the end-of-score flush emits a note only for a pending
sustain (whose chord may still be absent) — so closing a score with a
whole measure of rest nodes never changes the emitted note list. -/
theorem c9_amended (ms : List Ast) (k : Nat) (br : Bool) (h1 : 1 ≤ k) (h2 : k ≤ 16) :
    interpretTop (.Score (ms ++ [.Measure (List.replicate k .Rest) br])) =
      interpretTop (.Score ms) := by
  have hex : ∃ u, measureUnitSize k = some u := by
    interval_cases k <;> exact ⟨_, rfl⟩
  obtain ⟨u, hu⟩ := hex
  unfold interpretTop
  simp only [interpretAst]
  rw [interpretList_append]
  cases hms : interpretList initState ms with
  | none => rfl
  | some s =>
    simp only [Option.some_bind, interpretList]
    rw [rest_measure_eq s k u br h1 hu]
    cases hfs : flushS s with
    | none => rfl
    | some s1 =>
      have h0 : ({ s1 with rest := s1.rest + k * u } : ScoreSt).sustain = 0 :=
        (flushS_some hfs).1
      simp only [Option.map_some', Option.some_bind]
      rw [flushS_of_sustain_zero h0]
      rfl

/-- C9 amended witness: dropping a four-rest measure appended to a
one-chord score leaves the interpretation unchanged. -/
theorem c9_witness :
    interpretTop (.Score ([.Measure [.Chord ⟨.Absolute .C, [.Major 5], none⟩] false] ++
        [.Measure (List.replicate 4 .Rest) true])) =
      interpretTop (.Score [.Measure [.Chord ⟨.Absolute .C, [.Major 5], none⟩] false]) :=
  c9_amended [.Measure [.Chord ⟨.Absolute .C, [.Major 5], none⟩] false] 4 true
    (by decide) (by decide)

theorem interpretList_cons (st : ScoreSt) (a : Ast) (tl : List Ast) :
    interpretList st (a :: tl) = (interpretAst st a).bind (fun s => interpretList s tl) := by
  rfl

/-- C8: a score that begins with sustain nodes before any chord has been
resolved does not fail.  A measure of `k` sustains interpreted from the
fresh state accumulates `k * unit` against an absent chord; on its own
it yields exactly one note with no chord and the accumulated duration (a
held rest), and followed by anything it simply hands the accumulated
state on. -/
theorem c8_sustain_before_chord (k : Nat) (br : Bool) (h1 : 1 ≤ k) (h2 : k ≤ 16) :
    ∃ u, measureUnitSize k = some u ∧
      interpretAst initState (.Measure (List.replicate k .Sustain) br) =
        some ⟨[], k * u, 0, none⟩ ∧
      interpretTop (.Score [.Measure (List.replicate k .Sustain) br]) =
        some [⟨none, k * u⟩] ∧
      ∀ tl, interpretList initState (.Measure (List.replicate k .Sustain) br :: tl) =
        interpretList (⟨[], k * u, 0, none⟩ : ScoreSt) tl := by
  interval_cases k <;>
    exact ⟨_, rfl, rfl, rfl, fun tl => by rw [interpretList_cons]; rfl⟩

/-- C8 witness: the one-sustain score. -/
theorem c8_witness :
    ∃ u, measureUnitSize 1 = some u ∧
      interpretAst initState (.Measure (List.replicate 1 .Sustain) false) =
        some ⟨[], 1 * u, 0, none⟩ ∧
      interpretTop (.Score [.Measure (List.replicate 1 .Sustain) false]) =
        some [⟨none, 1 * u⟩] ∧
      ∀ tl, interpretList initState (.Measure (List.replicate 1 .Sustain) false :: tl) =
        interpretList (⟨[], 1 * u, 0, none⟩ : ScoreSt) tl :=
  c8_sustain_before_chord 1 false (by decide) (by decide)

def Node.isChordNode : Node → Bool
  | .Chord _ => true
  | _ => false

/-- C10: the remembered last-resolved chord is never cleared once set —
any non-chord node (rest, sustain, repeat) leaves `pre` unchanged and a
chord node replaces it with the freshly resolved chord — and in the
concrete score C, rest, sustain (unit 4) the sustain after the rest
starts a new note that re-sounds the remembered C chord instead of
extending the rest. -/
theorem flushR_pre (s : ScoreSt) : (flushR s).pre = s.pre := by
  unfold flushR
  split_ifs <;> rfl

theorem c10_pre_persistence :
    (∀ (st : ScoreSt) (n : Node) (dur : Nat) (st' : ScoreSt),
      n.isChordNode = false → interpretNode st n dur = some st' → st'.pre = st.pre) ∧
    (∀ (st : ScoreSt) (cn : ChordNode) (dur : Nat) (st' : ScoreSt),
      interpretNode st (.Chord cn) dur = some st' →
        ∃ c, cn.toChord = some c ∧ st'.pre = some c) ∧
    interpretTop (.Score [.Measure
        [.Chord ⟨.Absolute .C, [.Major 5], none⟩, .Rest, .Sustain] false]) =
      some [⟨some [60, 64, 67], 4⟩, ⟨none, 4⟩, ⟨some [60, 64, 67], 4⟩] := by
  refine ⟨?_, ?_, rfl⟩
  · intro st n dur st' hn h
    match n with
    | .Chord _ => simp [Node.isChordNode] at hn
    | .Rest =>
      rw [interpretNode_rest] at h
      cases hfs : flushS st with
      | none => rw [hfs] at h; simp at h
      | some s1 =>
        rw [hfs] at h
        simp only [Option.map_some', Option.some.injEq] at h
        subst h
        exact (flushS_some hfs).2.1
    | .Sustain =>
      have heq : interpretNode st .Sustain dur =
          some { flushR st with sustain := (flushR st).sustain + dur } := rfl
      rw [heq, Option.some.injEq] at h
      subst h
      exact flushR_pre st
    | .Repeat =>
      have heq : interpretNode st .Repeat dur =
          (flushS st).bind (fun a => some { flushR a with sustain := dur }) := rfl
      rw [heq] at h
      cases hfs : flushS st with
      | none => rw [hfs] at h; simp at h
      | some s1 =>
        rw [hfs] at h
        simp only [Option.some_bind, Option.some.injEq] at h
        subst h
        show (flushR s1).pre = st.pre
        rw [flushR_pre]
        exact (flushS_some hfs).2.1
  · intro st cn dur st' h
    have heq : interpretNode st (.Chord cn) dur =
        (flushS st).bind (fun a =>
          (cn.toChord).map (fun c => { flushR a with sustain := dur, pre := some c })) := rfl
    rw [heq] at h
    cases hfs : flushS st with
    | none => rw [hfs] at h; simp at h
    | some s1 =>
      rw [hfs] at h
      simp only [Option.some_bind] at h
      cases htc : cn.toChord with
      | none => rw [htc] at h; simp at h
      | some c =>
        rw [htc] at h
        simp only [Option.map_some', Option.some.injEq] at h
        subst h
        exact ⟨c, rfl, rfl⟩

/-- C10 witness: a rest node at the fresh state leaves the remembered
chord (absent) unchanged. -/
theorem c10_witness :
    ({ initState with rest := 4 } : ScoreSt).pre = initState.pre :=
  c10_pre_persistence.1 initState .Rest 4 { initState with rest := 4 } rfl rfl

end ChordMidi
